import Mathlib

set_option maxRecDepth 40000

/-!
# Verification of the name-redactor (`app.py`)

Shallow embedding of the redaction core of `app.py`:

* the regex machinery used by `redact_text_in_runs` (Python
  `re.subn(r'\b' + re.escape(term) + r'\b', placeholder, text, flags=re.IGNORECASE)`
  for a literal, escaped term),
* `generate_name_variations`, `redact_text_in_runs`, `redact_docx`,
* `redact_pdf` (the PyMuPDF calls are modelled abstractly; the observable
  result is the per-page trace of applied redaction marks),
* the ZIP read/write loops of the "Redact Files" button handler, and
  `extract_initials_from_filename`.

Modelling conventions:
* Python strings are Lean `String`s; character classes (`\w`, `str.isalpha`,
  case mapping) are modelled at the ASCII level, which covers every string
  occurring in the source and in the claims.
* Python's mutable loops are modelled as structural recursions / folds that
  thread the same accumulators (`modified` flags, counters).
* `re.subn`'s replacement argument is modelled as a literal string (the
  source's placeholder `"[REDACTED]"` contains no template escapes).
-/

/-! ## Python regex `\b` word-boundary matching for a literal pattern -/

/-- Python regex word character (`\w` over ASCII): alphanumeric or underscore. -/
def wordChar (c : Char) : Bool := c.isAlphanum || c == '_'

/-- Word-ness of an optional character; positions outside the string count as
non-word, exactly as Python treats the ends of the subject string. -/
def optWord : Option Char → Bool
  | none => false
  | some c => wordChar c

/-- The character just before position `i` (none at position 0). -/
def charBefore (s : List Char) : Nat → Option Char
  | 0 => none
  | i + 1 => s[i]?

/-- Python's `\b` at position `i` of `s`: the word-ness of the characters on
the two sides of the position differs. -/
def boundaryAt (s : List Char) (i : Nat) : Bool :=
  optWord (charBefore s i) != optWord s[i]?

/-- Case-insensitive equality of character lists (`re.IGNORECASE`, ASCII). -/
def ciEq (a b : List Char) : Bool :=
  decide (a.map Char.toLower = b.map Char.toLower)

/-- A match of the pattern `\b<escaped t>\b` (with `re.IGNORECASE`) starts at
position `i` of `s`: the term occurs there case-insensitively and `\b` holds
at both ends.  (For the empty term the source never calls the regex, see
`applyTerms`; we let the empty term match nowhere.) -/
def pyMatchAt (t s : List Char) (i : Nat) : Bool :=
  !t.isEmpty && decide (i + t.length ≤ s.length) &&
    ciEq ((s.drop i).take t.length) t &&
    boundaryAt s i && boundaryAt s (i + t.length)

/-- Scanning loop of `re.subn`: collect the start positions of the leftmost
non-overlapping matches, resuming after each match.  `fuel` only drives the
structural recursion; `fuel = s.length` is enough starting from `k = 0`
because `k` grows by at least one per step. -/
def greedyAux (t s : List Char) : Nat → Nat → List Nat
  | 0, _ => []
  | fuel + 1, k =>
    if k < s.length then
      if pyMatchAt t s k then k :: greedyAux t s fuel (k + t.length)
      else greedyAux t s fuel (k + 1)
    else []

/-- The match positions `re.subn` replaces at, leftmost non-overlapping. -/
def pyFindAll (t s : List Char) : List Nat := greedyAux t s s.length 0

/-- Rebuild the subject string with the placeholder substituted at the given
(ascending, non-overlapping) match positions. -/
def buildOut (tlen : Nat) (ph s : List Char) : Nat → List Nat → List Char
  | cur, [] => s.drop cur
  | cur, p :: ps => (s.drop cur).take (p - cur) ++ ph ++ buildOut tlen ph s (p + tlen) ps

/-- `re.subn(r'\b'+re.escape(t)+r'\b', ph, s, flags=re.IGNORECASE)` on
character lists: the new text and the number of substitutions. -/
def subnL (t ph s : List Char) : List Char × Nat :=
  let ps := pyFindAll t s
  (buildOut t.length ph s 0 ps, ps.length)

/-- `re.subn` on strings, as used at `app.py:112-113`. -/
def subnStr (t ph s : String) : String × Nat :=
  let r := subnL t.data ph.data s.data
  (⟨r.1⟩, r.2)

/-- Decidable "some `\b`-match of `t` occurs in `s`" (match starts are always
`< s.length` for a nonempty term). -/
def hasMatchIn (t s : String) : Bool :=
  (List.range s.data.length).any (fun i => pyMatchAt t.data s.data i)

/-! ## `redact_text_in_runs` (`app.py:95-126`) -/

/-- Python `not text.strip()`: the text is empty or whitespace-only. -/
def isBlank (s : String) : Bool := s.data.all (·.isWhitespace)

/-- Inner loop of `redact_text_in_runs` (`app.py:104-120`): apply every name
variation in order to the current text, skipping empty variations.  Returns
the final text and the total number of substitutions; the source observes the
latter only as per-term booleans (`num_replacements > 0`), whose disjunction
equals `count > 0` here. -/
def termStep (ph : String) (acc : String × Nat) (t : String) : String × Nat :=
  if t = "" then acc
  else
    let r := subnStr t ph acc.1
    if r.2 > 0 then (r.1, acc.2 + r.2) else acc

/-- See `termStep`: the loop over all name variations. -/
def applyTerms (terms : List String) (ph : String) (text : String) : String × Nat :=
  terms.foldl (termStep ph) (text, 0)

/-- A `python-docx` / `python-pptx` run: its text plus an opaque tag standing
for everything else the source never touches (formatting, style). -/
structure Run where
  text : String
  fmt : Nat
deriving DecidableEq

/-- Body of the `for run in runs` loop (`app.py:98-124`): blank runs are
skipped; otherwise the run's text is rewritten in place when any variation
substituted, and the per-run modified flag is reported. -/
def redactRun (terms : List String) (ph : String) (r : Run) : Run × Bool :=
  if isBlank r.text then (r, false)
  else
    let a := applyTerms terms ph r.text
    if a.2 > 0 then ({ r with text := a.1 }, true) else (r, false)

/-- `redact_text_in_runs(runs, names_to_redact_variations, redaction_string)`:
processes the runs in order, or-ing the per-run modified flags into the
paragraph's modified flag. -/
def redact_text_in_runs (runs : List Run) (terms : List String) (ph : String) :
    List Run × Bool :=
  match runs with
  | [] => ([], false)
  | r :: rest =>
    let h := redactRun terms ph r
    let t := redact_text_in_runs rest terms ph
    (h.1 :: t.1, h.2 || t.2)

/-! ## `redact_docx` (`app.py:128-148`) -/

/-- A DOCX paragraph: its ordered runs. -/
abbrev Para := List Run

/-- A DOCX table cell: its paragraphs. -/
abbrev Cell := List Para

/-- A DOCX table row: its cells. -/
abbrev Row := List Cell

/-- A DOCX table: its rows. -/
abbrev Table := List Row

/-- A DOCX section: its header and footer paragraphs. -/
structure DocxSection where
  header : List Para
  footer : List Para
deriving DecidableEq

/-- The parts of a `python-docx` `Document` the source traverses. -/
structure DocxDoc where
  paragraphs : List Para
  tables : List Table
  sections : List DocxSection
deriving DecidableEq

/-- `for para in paragraphs: if redact_text_in_runs(...): modified = True`. -/
def redactParas (ps : List Para) (terms : List String) (ph : String) :
    List Para × Bool :=
  match ps with
  | [] => ([], false)
  | p :: rest =>
    let h := redact_text_in_runs p terms ph
    let t := redactParas rest terms ph
    (h.1 :: t.1, h.2 || t.2)

/-- The `for cell in row.cells` loop body over one row. -/
def redactRow (row : Row) (terms : List String) (ph : String) : Row × Bool :=
  match row with
  | [] => ([], false)
  | c :: rest =>
    let h := redactParas c terms ph
    let t := redactRow rest terms ph
    (h.1 :: t.1, h.2 || t.2)

/-- The `for row in table.rows` loop over one table. -/
def redactTable (tbl : Table) (terms : List String) (ph : String) : Table × Bool :=
  match tbl with
  | [] => ([], false)
  | r :: rest =>
    let h := redactRow r terms ph
    let t := redactTable rest terms ph
    (h.1 :: t.1, h.2 || t.2)

/-- The `for table in doc.tables` loop. -/
def redactTables (tbls : List Table) (terms : List String) (ph : String) :
    List Table × Bool :=
  match tbls with
  | [] => ([], false)
  | t0 :: rest =>
    let h := redactTable t0 terms ph
    let t := redactTables rest terms ph
    (h.1 :: t.1, h.2 || t.2)

/-- The `for section in doc.sections` loop (header then footer paragraphs). -/
def redactSections (secs : List DocxSection) (terms : List String) (ph : String) :
    List DocxSection × Bool :=
  match secs with
  | [] => ([], false)
  | s :: rest =>
    let hh := redactParas s.header terms ph
    let hf := redactParas s.footer terms ph
    let t := redactSections rest terms ph
    (⟨hh.1, hf.1⟩ :: t.1, (hh.2 || hf.2) || t.2)

/-- The whole-document traversal of `redact_docx`: the mutated tree and the
accumulated `modified_doc` flag. -/
def redactDocxCore (doc : DocxDoc) (terms : List String) (ph : String) :
    DocxDoc × Bool :=
  let ps := redactParas doc.paragraphs terms ph
  let ts := redactTables doc.tables terms ph
  let ss := redactSections doc.sections terms ph
  (⟨ps.1, ts.1, ss.1⟩, ps.2 || ts.2 || ss.2)

/-- `redact_docx`: serialize (here: return) the mutated tree when any
paragraph was modified, else `None` (`app.py:143-148`). -/
def redact_docx (doc : DocxDoc) (terms : List String) (ph : String) :
    Option DocxDoc :=
  let c := redactDocxCore doc terms ph
  if c.2 then some c.1 else none

/-! ## `generate_name_variations` (`app.py:26-92`) -/

/-- The fixed honorific list (`app.py:12-16`). -/
def COMMON_HONORIFICS : List String :=
  ["Mr.", "Mrs.", "Ms.", "Miss", "Dr.", "Doctor", "Prof.", "Professor",
   "Rev.", "Reverend", "Hon.", "Honorable", "Gen.", "General", "Sgt.", "Sergeant",
   "Capt.", "Captain", "Lt.", "Lieutenant", "Fr.", "Father", "Sr.", "Sister"]

/-- Python `s.strip()` (whitespace strip on both ends). -/
def pyStrip (s : String) : String :=
  ⟨((s.data.dropWhile (·.isWhitespace)).reverse.dropWhile (·.isWhitespace)).reverse⟩

/-- `h.lower().replace('.', '')` — honorific normalisation (`app.py:35`). -/
def normalizeHon (h : String) : String :=
  ⟨(h.data.map Char.toLower).filter (fun c => c ≠ '.')⟩

/-- Splitting into maximal runs of non-delimiter characters (delimiters
dropped, no empty parts) — the effect of Python's `re.split` on a
character-class pattern followed by dropping falsy parts, and of `str.split()`
for the whitespace predicate. -/
def wordsByAux (p : Char → Bool) : List Char → List Char → List (List Char)
  | [], acc => if acc = [] then [] else [acc.reverse]
  | c :: cs, acc =>
    if p c then
      if acc = [] then wordsByAux p cs []
      else acc.reverse :: wordsByAux p cs []
    else wordsByAux p cs (c :: acc)

/-- See `wordsByAux`. -/
def wordsBy (p : Char → Bool) (l : List Char) : List (List Char) :=
  wordsByAux p l []

/-- Delimiters of `re.split(r'[\s.-]+', ...)` (`app.py:43`). -/
def nameDelim (c : Char) : Bool := c.isWhitespace || c == '.' || c == '-'

/-- `re.split(r'[\s.-]+', s)` with empty parts dropped (`app.py:43-44`). -/
def splitNameParts (s : String) : List String :=
  (wordsBy nameDelim s.data).map (fun l => (⟨l⟩ : String))

/-- Python `s.split()` (split on whitespace, no empties). -/
def splitWs (s : String) : List String :=
  (wordsBy (·.isWhitespace) s.data).map (fun l => (⟨l⟩ : String))

/-- `" ".flatten(parts)`. -/
def joinSpace : List String → String
  | [] => ""
  | [s] => s
  | s :: rest => s ++ " " ++ joinSpace rest

/-- Adding one element to the Python `set` of variations, modelled as an
insertion-ordered duplicate-free list. -/
def addVar (l : List String) (v : String) : List String :=
  if v ∈ l then l else l ++ [v]

/-- First character of a Python string as a string (`s[0]`); the source only
evaluates it on non-empty parts. -/
def firstCharStr (s : String) : String := ⟨s.data.take 1⟩

/-- Honorific-stripping step (`app.py:46-54`): the bare name (default: the
entry itself) and the possibly-extended variation set. -/
def stripHonorific (honSet : List String) (original : String)
    (vars : List String) : String × List String :=
  match splitNameParts original with
  | p0 :: r0 :: rs =>
    if honSet.contains (normalizeHon p0) then
      let bare := joinSpace (r0 :: rs)
      (bare, addVar vars bare)
    else (original, vars)
  | _ => (original, vars)

/-- Body of the `for honorific in honorifics_list` loop (`app.py:58-63`). -/
def honorificStep (nwh : String) (baseParts : List String)
    (vars : List String) (h : String) : List String :=
  let vars := addVar vars (h ++ " " ++ nwh)
  if baseParts.length > 1 then addVar vars (h ++ " " ++ baseParts.getLastD "")
  else vars

/-- Initials / multi-part variations from the bare name (`app.py:66-86`). -/
def initialsStep (baseParts : List String) (vars : List String) : List String :=
  match baseParts with
  | [a] => addVar vars a
  | [f, l] =>
    let vars := addVar vars l
    let vars := addVar vars (firstCharStr f ++ ". " ++ l)
    let vars := addVar vars (f ++ " " ++ firstCharStr l ++ ".")
    addVar vars (firstCharStr f ++ "." ++ firstCharStr l ++ ".")
  | [f, m, l] =>
    let vars := addVar vars l
    let vars := addVar vars (f ++ " " ++ l)
    let vars := addVar vars (firstCharStr f ++ ". " ++ l)
    let vars := addVar vars (firstCharStr f ++ ". " ++ firstCharStr m ++ ". " ++ l)
    addVar vars (f ++ " " ++ firstCharStr m ++ ". " ++ l)
  | _ => vars

/-- Body of the `for name_entry in user_provided_names_list` loop
(`app.py:37-86`). -/
def nameStep (honorifics honSet : List String) (vars : List String)
    (nameEntry : String) : List String :=
  let original := pyStrip nameEntry
  if original = "" then vars
  else
    let vars := addVar vars original
    let sh := stripHonorific honSet original vars
    let nwh := sh.1
    let vars := sh.2
    let baseParts := splitWs nwh
    let vars := honorifics.foldl (honorificStep nwh baseParts) vars
    initialsStep baseParts vars

/-- Stable insertion into a length-descending list (ties keep earlier
elements first). -/
def insertByLen (x : String) : List String → List String
  | [] => [x]
  | y :: ys => if y.length < x.length then x :: y :: ys else y :: insertByLen x ys

/-- `sorted(l, key=len, reverse=True)`.  (Python's `set` iteration order is
unspecified, so the order among equal-length variations is not a property of
the source; any length-descending sort is a faithful model.) -/
def sortDescLen (l : List String) : List String := l.foldr insertByLen []

/-- `generate_name_variations(user_provided_names_list, honorifics_list)`. -/
def generate_name_variations (names honorifics : List String) : List String :=
  if names = [] then []
  else
    let honSet := honorifics.map normalizeHon
    let vars := names.foldl (nameStep honorifics honSet) []
    sortDescLen (vars.filter (fun v => !(v == "") && decide (1 < (pyStrip v).length)))

/-! ## `redact_pdf` (`app.py:176-227`)

The PyMuPDF layer is modelled abstractly: a page carries an uninterpreted
`search` function standing for `page.search_for` (with the source's flags),
and the observable output of `redact_pdf` is the per-page trace of redaction
marks that were registered and applied (`page.add_redact_annot` /
`page.apply_redactions`); `doc.save(...)` serializes exactly that mutated
state.  Rect coordinates are modelled as integers; nothing below depends on
their arithmetic beyond the emptiness/infinity checks. -/

/-- A PyMuPDF rectangle. -/
structure PdfRect where
  x0 : Int
  y0 : Int
  x1 : Int
  y1 : Int
deriving DecidableEq

/-- `Rect.is_empty`: width or height is not positive. -/
def PdfRect.isEmptyR (r : PdfRect) : Bool := r.x1 ≤ r.x0 || r.y1 ≤ r.y0

/-- `Rect.is_infinite`: the infinite rectangle. -/
def PdfRect.isInfiniteR (r : PdfRect) : Bool :=
  r == ⟨-2147483648, -2147483648, 2147483647, 2147483647⟩

/-- A PDF page, abstracted to its text-search behaviour. -/
structure PdfPage where
  search : String → List PdfRect

/-- A redaction mark as registered by
`page.add_redact_annot(r, text="", fill=(0, 0, 0))` (`app.py:210`). -/
structure RedactMark where
  rect : PdfRect
  overlay : String
  fill : Int × Int × Int
deriving DecidableEq

/-- The `for name_var in names_to_redact_variations` loop on one page
(`app.py:189-204`): collect the valid rects of every variation's occurrences. -/
def pageRects (pg : PdfPage) (terms : List String) : List PdfRect :=
  terms.foldl
    (fun acc t =>
      if t = "" then acc
      else acc ++ (pg.search t).filter (fun r => !r.isEmptyR && !r.isInfiniteR))
    []

/-- The redaction marks applied to one page (`app.py:206-218`): one mark per
collected rect, with empty overlay text and opaque black fill; a page with no
rects is left untouched. -/
def pageTrace (pg : PdfPage) (terms : List String) : List RedactMark :=
  (pageRects pg terms).map (fun r => ⟨r, "", (0, 0, 0)⟩)

/-- The applied-marks traces of all pages. -/
def pdfTraces (doc : List PdfPage) (terms : List String) : List (List RedactMark) :=
  doc.map (fun pg => pageTrace pg terms)

/-- `redact_pdf(pdf_file_stream, names_to_redact_variations, redaction_string)`;
the third argument is not used for the PDF visual output (`app.py:176`).
Returns the serialized mutated state (the applied-marks traces) when any page
acquired a mark, else `None`. -/
def redact_pdf (doc : List PdfPage) (terms : List String)
    (redaction_string : String) : Option (List (List RedactMark)) :=
  let traces := pdfTraces doc terms
  if traces.any (fun tr => !tr.isEmpty) then some traces else none

/-! ## The ZIP branch of the "Redact Files" handler (`app.py:318-381`) -/

/-- A ZIP member's bytes, abstractly. -/
abbrev Bytes := List Nat

/-- A named ZIP archive member. -/
structure ZipMember where
  name : String
  data : Bytes
deriving DecidableEq

/-- `os.path.basename` (POSIX): the part after the last `/`. -/
def pyBasename (s : String) : String :=
  ⟨(s.data.reverse.takeWhile (fun c => c ≠ '/')).reverse⟩

/-- Index of the last `.` in a character list, if any. -/
def lastDotIdx (l : List Char) : Option Nat :=
  match l.reverse.findIdx? (fun c => c = '.') with
  | none => none
  | some k => some (l.length - 1 - k)

/-- `os.path.splitext` on a basename: split at the last dot unless every
character before it is also a dot (leading dots carry no extension). -/
def splitextBase (l : List Char) : List Char × List Char :=
  match lastDotIdx l with
  | none => (l, [])
  | some d => if (l.take d).any (fun c => c ≠ '.') then (l.take d, l.drop d) else (l, [])

/-- The lower-cased extension of a member's filename part
(`os.path.splitext(os.path.basename(name))[1].lower()`). -/
def extLowerOf (name : String) : String :=
  ⟨((splitextBase (pyBasename name).data).2).map Char.toLower⟩

/-- `member_name.endswith('/') or member_name.startswith('__MACOSX')`
(`app.py:332`). -/
def skipEntry (name : String) : Bool :=
  decide (name.data.getLast? = some '/') || "__MACOSX".data.isPrefixOf name.data

/-- The supported-format check (`app.py:334`). -/
def supportedExt (e : String) : Bool := e == ".docx" || e == ".pptx" || e == ".pdf"

/-- A member the read loop processes: not a directory entry, not platform
metadata, and of a supported format. -/
def keepMember (m : ZipMember) : Bool :=
  !skipEntry m.name && supportedExt (extLowerOf m.name)

/-- The ZIP read loop (`app.py:327-352`), parametrised by the per-extension
adapter dispatch `redactFile` (the calls to `redact_docx`/`redact_pptx`/
`redact_pdf` on the member's bytes, `None` meaning "no redactions").  Returns
the processed `(name, redacted-or-original bytes)` list and the
`members_found_for_processing_in_zip` flag. -/
def zipReadStep (redactFile : String → Bytes → Option Bytes)
    (acc : List ZipMember × Bool) (m : ZipMember) : List ZipMember × Bool :=
  if skipEntry m.name then acc
  else
    let e := extLowerOf m.name
    if supportedExt e then
      (acc.1 ++ [⟨m.name, (redactFile e m.data).getD m.data⟩], true)
    else acc

/-- See `zipReadStep`. -/
def zipReadLoop (redactFile : String → Bytes → Option Bytes)
    (members : List ZipMember) : List ZipMember × Bool :=
  members.foldl (zipReadStep redactFile) ([], false)

/-- `extract_initials_from_filename(filename_base)` (`app.py:229-246`). -/
def extract_initials_from_filename (base : String) : String :=
  let namePart := (splitextBase base.data).1
  let parts := (wordsBy (fun c => c.isWhitespace || c == '_' || c == '-') namePart).filter
    (fun p => match p.head? with | some c => c.isAlpha | none => false)
  let inits : List Char :=
    match parts with
    | p0 :: p1 :: _ => p0.take 1 ++ p1.take 1
    | [p0] => if 2 ≤ p0.length then p0.take 2 else p0.take 1
    | [] => []
  ⟨inits.map Char.toUpper⟩

/-- Python `f"{n:04d}"` for the member counter. -/
def pad4 (n : Nat) : String :=
  let s := toString n
  if s.length < 4 then ⟨List.replicate (4 - s.length) '0'⟩ ++ s else s

/-- The ZIP write loop (`app.py:357-375`): every processed member is written
to the fresh archive under
`{base}[_{initials}]_{counter:04d}{original extension}`. -/
def zipWriteLoop (base : String) : Nat → List ZipMember → List ZipMember
  | _, [] => []
  | counter, m :: rest =>
    let fname := pyBasename m.name
    let se := splitextBase fname.data
    let inits := extract_initials_from_filename ⟨se.1⟩
    let newBase :=
      if inits ≠ "" then base ++ "_" ++ inits ++ "_" ++ pad4 counter
      else base ++ "_" ++ pad4 counter
    ⟨newBase ++ ⟨se.2⟩, m.data⟩ :: zipWriteLoop base (counter + 1) rest

/-- The whole ZIP branch for one archive: read loop, then—when supported
members were found and processed—the freshly built output archive
(`app.py:354-375`); otherwise no output archive is produced. -/
def processZip (redactFile : String → Bytes → Option Bytes) (base : String)
    (members : List ZipMember) : Option (List ZipMember) :=
  let r := zipReadLoop redactFile members
  if r.2 && !r.1.isEmpty then some (zipWriteLoop base 1 r.1) else none

/-! ## Derived observables and claim-side (spec-modelled) definitions -/

/-- The number of substitutions the source performs on one run: skipped runs
contribute nothing; otherwise the total over the variation loop. -/
def runSubCount (terms : List String) (ph : String) (r : Run) : Nat :=
  if isBlank r.text then 0 else (applyTerms terms ph r.text).2

/-- All runs of a table row, in traversal order. -/
def rowRuns (row : Row) : List Run := (row.map (fun c => c.flatten)).flatten

/-- All runs of a table, in traversal order. -/
def tableRuns (t : Table) : List Run := (t.map rowRuns).flatten

/-- All runs of a section's header and footer, in traversal order. -/
def secRuns (s : DocxSection) : List Run := s.header.flatten ++ s.footer.flatten

/-- Every run `redact_docx` visits: body paragraphs, table cells, headers,
footers. -/
def docRuns (doc : DocxDoc) : List Run :=
  doc.paragraphs.flatten ++ (doc.tables.map tableRuns).flatten ++
    (doc.sections.map secRuns).flatten

/-- Concatenation of a paragraph's run texts. -/
def concatTexts (l : List String) : String := l.foldl (fun a b => a ++ b) ""

/-- Modelled from claim C1 / spec §4.4's words (NOT from the source): per
paragraph, concatenate the run texts into one string, run the matcher on it;
if nothing matched keep the original runs untouched, else clear all runs and
create one new run holding the fully redacted paragraph text, carrying the
first original run's formatting. -/
def claimParagraphRedact (runs : List Run) (terms : List String) (ph : String) :
    List Run × Bool :=
  let full := concatTexts (runs.map Run.text)
  let a := applyTerms terms ph full
  if 0 < a.2 then ([⟨a.1, (runs.headD ⟨"", 0⟩).fmt⟩], true) else (runs, false)

/-- Alphanumeric-ness of an optional character (claim C2's exterior test). -/
def optAlnum : Option Char → Bool
  | none => false
  | some c => c.isAlphanum

/-- Modelled from claim C2's words (NOT from the source): a "whole-word,
case-insensitive occurrence" of `t` at position `i` of `s` — the term occurs
there case-insensitively and the start and end are not adjacent to an
alphanumeric character on the exterior. -/
def claimWholeWordAt (t s : String) (i : Nat) : Bool :=
  !t.data.isEmpty && decide (i + t.data.length ≤ s.data.length) &&
    ciEq ((s.data.drop i).take t.data.length) t.data &&
    !optAlnum (charBefore s.data i) && !optAlnum s.data[i + t.data.length]?


/-! ## Lemmas about the matcher -/

theorem pyMatchAt_lt {t s : List Char} {i : Nat} (h : pyMatchAt t s i = true) :
    i < s.length := by
  simp only [pyMatchAt, Bool.and_eq_true, Bool.not_eq_true', decide_eq_true_eq] at h
  have ht : t ≠ [] := by
    intro he
    simp [he] at h
  have : 1 ≤ t.length := List.length_pos.mpr ht
  omega

theorem greedyAux_mem {t s : List Char} :
    ∀ fuel k p, p ∈ greedyAux t s fuel k → pyMatchAt t s p = true := by
  intro fuel
  induction fuel with
  | zero => intro k p hp; simp [greedyAux] at hp
  | succ n ih =>
    intro k p hp
    unfold greedyAux at hp
    by_cases hk : k < s.length
    · simp only [hk, if_true] at hp
      by_cases hm : pyMatchAt t s k
      · simp only [hm, if_true, List.mem_cons] at hp
        rcases hp with rfl | hp
        · exact hm
        · exact ih _ _ hp
      · simp only [hm, if_false] at hp
        exact ih _ _ hp
    · simp [hk] at hp

theorem greedyAux_ne_nil {t s : List Char} {i : Nat} (hm : pyMatchAt t s i = true) :
    ∀ fuel k, k ≤ i → s.length - k ≤ fuel → greedyAux t s fuel k ≠ [] := by
  intro fuel
  induction fuel with
  | zero =>
    intro k hk hf
    have := pyMatchAt_lt hm
    omega
  | succ n ih =>
    intro k hk hf
    unfold greedyAux
    have hilt := pyMatchAt_lt hm
    have hklt : k < s.length := by omega
    simp only [hklt, if_true]
    by_cases hmk : pyMatchAt t s k
    · simp [hmk]
    · simp only [hmk, if_false]
      have hki : k ≠ i := fun he => hmk (he ▸ hm)
      exact ih (k + 1) (by omega) (by omega)

theorem greedyAux_nil_of_none {t s : List Char} (h : ∀ i, pyMatchAt t s i = false) :
    ∀ fuel k, greedyAux t s fuel k = [] := by
  intro fuel
  induction fuel with
  | zero => intro k; rfl
  | succ n ih =>
    intro k
    unfold greedyAux
    by_cases hk : k < s.length
    · simp [hk, h k, ih]
    · simp [hk]

theorem subnL_of_none {t ph s : List Char} (h : ∀ i, pyMatchAt t s i = false) :
    subnL t ph s = (s, 0) := by
  unfold subnL pyFindAll
  rw [greedyAux_nil_of_none h]
  rfl

theorem hasMatchIn_false_all {t s : String} (h : hasMatchIn t s = false) :
    ∀ i, pyMatchAt t.data s.data i = false := by
  intro i
  by_cases hi : i < s.data.length
  · have := List.any_eq_false.mp h i (List.mem_range.mpr hi)
    exact Bool.not_eq_true _ ▸ Bool.of_not_eq_true this
  · by_contra hne
    have htrue : pyMatchAt t.data s.data i = true := by
      cases hmm : pyMatchAt t.data s.data i
      · exact absurd hmm hne
      · rfl
    exact hi (pyMatchAt_lt htrue)

theorem subnStr_of_noMatch {t s : String} (h : hasMatchIn t s = false) (ph : String) :
    subnStr t ph s = (s, 0) := by
  unfold subnStr
  rw [subnL_of_none (hasMatchIn_false_all h)]

theorem subn_pos_iff_exists (t ph s : String) :
    0 < (subnStr t ph s).2 ↔ ∃ i, i < s.data.length ∧ pyMatchAt t.data s.data i = true := by
  constructor
  · intro hpos
    have hne : pyFindAll t.data s.data ≠ [] := by
      intro he
      simp [subnStr, subnL, he] at hpos
    obtain ⟨p, hp⟩ := List.exists_mem_of_ne_nil _ hne
    have hm := greedyAux_mem _ _ p hp
    exact ⟨p, pyMatchAt_lt hm, hm⟩
  · rintro ⟨i, _, hm⟩
    have hne := greedyAux_ne_nil hm s.data.length 0 (Nat.zero_le i) (by omega)
    have : (pyFindAll t.data s.data).length ≠ 0 := by
      intro he
      exact hne (List.length_eq_zero.mp he)
    simp only [subnStr, subnL]
    omega

/-! ## Lemmas about `applyTerms` and the run loop -/

theorem termStep_noMatch {t s : String} (h : hasMatchIn t s = false) (ph : String)
    (n : Nat) : termStep ph (s, n) t = (s, n) := by
  unfold termStep
  by_cases ht : t = ""
  · simp [ht]
  · simp only [ht, if_false]
    rw [subnStr_of_noMatch h ph]
    simp

theorem foldl_termStep_noMatch {terms : List String} {s : String}
    (h : ∀ t ∈ terms, hasMatchIn t s = false) (ph : String) (n : Nat) :
    terms.foldl (termStep ph) (s, n) = (s, n) := by
  induction terms with
  | nil => rfl
  | cons t rest ih =>
    simp only [List.foldl_cons]
    rw [termStep_noMatch (h t (List.mem_cons_self t rest)) ph n]
    exact ih (fun x hx => h x (List.mem_cons_of_mem t hx))

theorem applyTerms_noMatch {terms : List String} {s : String}
    (h : ∀ t ∈ terms, hasMatchIn t s = false) (ph : String) :
    applyTerms terms ph s = (s, 0) :=
  foldl_termStep_noMatch h ph 0

theorem redactRun_noMatch {terms : List String} {r : Run}
    (h : ∀ t ∈ terms, hasMatchIn t r.text = false) (ph : String) :
    redactRun terms ph r = (r, false) := by
  unfold redactRun
  by_cases hb : isBlank r.text
  · simp [hb]
  · simp only [hb, if_false]
    rw [applyTerms_noMatch h ph]
    simp

theorem redactRun_fmt (terms : List String) (ph : String) (r : Run) :
    ((redactRun terms ph r).1).fmt = r.fmt := by
  unfold redactRun
  by_cases hb : isBlank r.text
  · simp [hb]
  · simp only [hb, if_false]
    by_cases hp : (applyTerms terms ph r.text).2 > 0
    · simp [hp]
    · simp [hp]

theorem rtir_fst (runs : List Run) (terms : List String) (ph : String) :
    (redact_text_in_runs runs terms ph).1 =
      runs.map (fun r => (redactRun terms ph r).1) := by
  induction runs with
  | nil => rfl
  | cons r rest ih => simp [redact_text_in_runs, ih]

theorem rtir_snd (runs : List Run) (terms : List String) (ph : String) :
    (redact_text_in_runs runs terms ph).2 =
      runs.any (fun r => (redactRun terms ph r).2) := by
  induction runs with
  | nil => rfl
  | cons r rest ih => simp [redact_text_in_runs, ih]

theorem rtir_noMatch {runs : List Run} {terms : List String}
    (h : ∀ r ∈ runs, ∀ t ∈ terms, hasMatchIn t r.text = false) (ph : String) :
    redact_text_in_runs runs terms ph = (runs, false) := by
  induction runs with
  | nil => rfl
  | cons r rest ih =>
    unfold redact_text_in_runs
    rw [redactRun_noMatch (h r (List.mem_cons_self r rest)) ph,
      ih (fun x hx => h x (List.mem_cons_of_mem r hx))]
    rfl

theorem redactRun_snd (terms : List String) (ph : String) (r : Run) :
    (redactRun terms ph r).2 = decide (0 < runSubCount terms ph r) := by
  unfold redactRun runSubCount
  by_cases hb : isBlank r.text
  · simp [hb]
  · simp only [hb, if_false]
    by_cases hp : (applyTerms terms ph r.text).2 > 0
    · simp [hp]
    · simp only [hp, if_false]
      simp only [Nat.not_lt_eq, Nat.le_zero] at hp
      simp [hp]

/-! ## Lemmas about the document traversal -/

theorem any_flatten {α : Type} (l : List (List α)) (p : α → Bool) :
    l.flatten.any p = l.any (fun x => x.any p) := by
  induction l with
  | nil => rfl
  | cons x rest ih => simp [List.any_append, ih]

theorem redactParas_noMatch {ps : List Para} {terms : List String}
    (h : ∀ r ∈ ps.flatten, ∀ t ∈ terms, hasMatchIn t r.text = false) (ph : String) :
    redactParas ps terms ph = (ps, false) := by
  induction ps with
  | nil => rfl
  | cons p rest ih =>
    unfold redactParas
    rw [rtir_noMatch (fun r hr => h r (by simp [hr])) ph,
      ih (fun r hr => h r (by simp at hr ⊢; exact Or.inr hr))]
    rfl

theorem redactParas_snd (ps : List Para) (terms : List String) (ph : String) :
    (redactParas ps terms ph).2 =
      ps.any (fun p => (redact_text_in_runs p terms ph).2) := by
  induction ps with
  | nil => rfl
  | cons p rest ih => simp [redactParas, ih]

theorem redactParas_snd_runs (ps : List Para) (terms : List String) (ph : String) :
    (redactParas ps terms ph).2 =
      ps.flatten.any (fun r => (redactRun terms ph r).2) := by
  rw [redactParas_snd, any_flatten]
  congr 1
  funext p
  exact rtir_snd p terms ph

theorem redactRow_noMatch {row : Row} {terms : List String}
    (h : ∀ r ∈ rowRuns row, ∀ t ∈ terms, hasMatchIn t r.text = false) (ph : String) :
    redactRow row terms ph = (row, false) := by
  induction row with
  | nil => rfl
  | cons c rest ih =>
    unfold redactRow
    rw [redactParas_noMatch (fun r hr => h r (by simp [rowRuns] at hr ⊢; exact Or.inl hr)) ph,
      ih (fun r hr => h r (by simp [rowRuns] at hr ⊢; exact Or.inr hr))]
    rfl

theorem redactRow_snd (row : Row) (terms : List String) (ph : String) :
    (redactRow row terms ph).2 =
      (rowRuns row).any (fun r => (redactRun terms ph r).2) := by
  induction row with
  | nil => rfl
  | cons c rest ih =>
    simp only [redactRow, rowRuns, List.map_cons, List.flatten_cons, List.any_append]
    rw [ih, redactParas_snd_runs]
    rfl

theorem redactTable_noMatch {tbl : Table} {terms : List String}
    (h : ∀ r ∈ tableRuns tbl, ∀ t ∈ terms, hasMatchIn t r.text = false) (ph : String) :
    redactTable tbl terms ph = (tbl, false) := by
  induction tbl with
  | nil => rfl
  | cons row rest ih =>
    unfold redactTable
    rw [redactRow_noMatch (fun r hr => h r (by simp [tableRuns] at hr ⊢; exact Or.inl hr)) ph,
      ih (fun r hr => h r (by simp [tableRuns] at hr ⊢; exact Or.inr hr))]
    rfl

theorem redactTable_snd (tbl : Table) (terms : List String) (ph : String) :
    (redactTable tbl terms ph).2 =
      (tableRuns tbl).any (fun r => (redactRun terms ph r).2) := by
  induction tbl with
  | nil => rfl
  | cons row rest ih =>
    simp only [redactTable, tableRuns, List.map_cons, List.flatten_cons, List.any_append]
    rw [ih, redactRow_snd]
    rfl

theorem redactTables_noMatch {tbls : List Table} {terms : List String}
    (h : ∀ r ∈ (tbls.map tableRuns).flatten, ∀ t ∈ terms, hasMatchIn t r.text = false)
    (ph : String) : redactTables tbls terms ph = (tbls, false) := by
  induction tbls with
  | nil => rfl
  | cons tbl rest ih =>
    unfold redactTables
    rw [redactTable_noMatch (fun r hr => h r (by simp at hr ⊢; exact Or.inl hr)) ph,
      ih (fun r hr => h r (by simp at hr ⊢; exact Or.inr hr))]
    rfl

theorem redactTables_snd (tbls : List Table) (terms : List String) (ph : String) :
    (redactTables tbls terms ph).2 =
      ((tbls.map tableRuns).flatten).any (fun r => (redactRun terms ph r).2) := by
  induction tbls with
  | nil => rfl
  | cons tbl rest ih =>
    simp only [redactTables, List.map_cons, List.flatten_cons, List.any_append]
    rw [ih, redactTable_snd]

theorem redactSections_noMatch {secs : List DocxSection} {terms : List String}
    (h : ∀ r ∈ (secs.map secRuns).flatten, ∀ t ∈ terms, hasMatchIn t r.text = false)
    (ph : String) : redactSections secs terms ph = (secs, false) := by
  induction secs with
  | nil => rfl
  | cons s rest ih =>
    unfold redactSections
    rw [redactParas_noMatch
        (fun r hr => h r (by
          rw [List.map_cons, List.flatten_cons]
          exact List.mem_append_left _ (List.mem_append_left _ hr))) ph,
      redactParas_noMatch
        (fun r hr => h r (by
          rw [List.map_cons, List.flatten_cons]
          exact List.mem_append_left _ (List.mem_append_right _ hr))) ph,
      ih (fun r hr => h r (by
        rw [List.map_cons, List.flatten_cons]
        exact List.mem_append_right _ hr))]
    rfl

theorem redactSections_snd (secs : List DocxSection) (terms : List String) (ph : String) :
    (redactSections secs terms ph).2 =
      ((secs.map secRuns).flatten).any (fun r => (redactRun terms ph r).2) := by
  induction secs with
  | nil => rfl
  | cons s rest ih =>
    simp only [redactSections, List.map_cons, List.flatten_cons, List.any_append,
      secRuns]
    rw [ih, redactParas_snd_runs, redactParas_snd_runs]

theorem redactDocxCore_noMatch {doc : DocxDoc} {terms : List String}
    (h : ∀ r ∈ docRuns doc, ∀ t ∈ terms, hasMatchIn t r.text = false) (ph : String) :
    redactDocxCore doc terms ph = (doc, false) := by
  unfold redactDocxCore
  rw [redactParas_noMatch (fun r hr => h r
      (List.mem_append_left _ (List.mem_append_left _ hr))) ph,
    redactTables_noMatch (fun r hr => h r
      (List.mem_append_left _ (List.mem_append_right _ hr))) ph,
    redactSections_noMatch (fun r hr => h r (List.mem_append_right _ hr)) ph]
  rfl

theorem redactDocxCore_snd (doc : DocxDoc) (terms : List String) (ph : String) :
    (redactDocxCore doc terms ph).2 =
      (docRuns doc).any (fun r => (redactRun terms ph r).2) := by
  unfold redactDocxCore docRuns
  simp only [List.any_append]
  rw [redactParas_snd_runs, redactTables_snd, redactSections_snd]

theorem redact_docx_none_iff (doc : DocxDoc) (terms : List String) (ph : String) :
    redact_docx doc terms ph = none ↔
      (docRuns doc).all (fun r => runSubCount terms ph r == 0) = true := by
  unfold redact_docx
  constructor
  · intro h
    by_cases hc : (redactDocxCore doc terms ph).2
    · simp [hc] at h
    · rw [redactDocxCore_snd] at hc
      have hall := List.any_eq_false.mp (Bool.of_not_eq_true hc)
      rw [List.all_eq_true]
      intro r hr
      have := hall r hr
      rw [redactRun_snd] at this
      simp only [decide_eq_true_eq] at this
      have hz : runSubCount terms ph r = 0 := by omega
      simp [hz]
  · intro h
    have hc : (redactDocxCore doc terms ph).2 = false := by
      rw [redactDocxCore_snd]
      rw [List.any_eq_false]
      intro r hr
      have := List.all_eq_true.mp h r hr
      rw [redactRun_snd]
      simp only [beq_iff_eq] at this
      simp [this]
    simp [hc]

/-! ## Lemmas about `generate_name_variations` -/

theorem addVar_nodup {l : List String} (h : l.Nodup) (v : String) :
    (addVar l v).Nodup := by
  unfold addVar
  by_cases hv : v ∈ l
  · simp [hv, h]
  · simp only [hv, if_false]
    rw [List.nodup_append]
    exact ⟨h, List.nodup_singleton v, by simp [hv]⟩

theorem stripHonorific_nodup {honSet : List String} {original : String}
    {vars : List String} (h : vars.Nodup) :
    (stripHonorific honSet original vars).2.Nodup := by
  unfold stripHonorific
  rcases splitNameParts original with _ | ⟨p0, _ | ⟨r0, rs⟩⟩
  · exact h
  · exact h
  · by_cases hc : honSet.contains (normalizeHon p0)
    · simp only [hc, if_true]
      exact addVar_nodup h _
    · simp only [hc, if_false]
      exact h

theorem honorificStep_nodup {nwh : String} {baseParts : List String}
    {vars : List String} (h : vars.Nodup) (hon : String) :
    (honorificStep nwh baseParts vars hon).Nodup := by
  unfold honorificStep
  by_cases hl : baseParts.length > 1
  · simp only [hl, if_true]
    exact addVar_nodup (addVar_nodup h _) _
  · simp only [hl, if_false]
    exact addVar_nodup h _

theorem foldl_honorificStep_nodup {nwh : String} {baseParts : List String} :
    ∀ (hons : List String) (vars : List String), vars.Nodup →
      (hons.foldl (honorificStep nwh baseParts) vars).Nodup := by
  intro hons
  induction hons with
  | nil => exact fun _ h => h
  | cons hon rest ih =>
    intro vars h
    exact ih _ (honorificStep_nodup h hon)

theorem initialsStep_nodup {baseParts : List String} {vars : List String}
    (h : vars.Nodup) : (initialsStep baseParts vars).Nodup := by
  unfold initialsStep
  rcases baseParts with _ | ⟨a, _ | ⟨b, _ | ⟨c, _ | _⟩⟩⟩
  · exact h
  · exact addVar_nodup h _
  · exact addVar_nodup (addVar_nodup (addVar_nodup (addVar_nodup h _) _) _) _
  · exact addVar_nodup (addVar_nodup (addVar_nodup (addVar_nodup (addVar_nodup h _) _) _) _) _
  · exact h

theorem nameStep_nodup {honorifics honSet : List String} {vars : List String}
    (h : vars.Nodup) (entry : String) :
    (nameStep honorifics honSet vars entry).Nodup := by
  unfold nameStep
  by_cases he : pyStrip entry = ""
  · simp only [he, if_true]
    exact h
  · simp only [he, if_false]
    exact initialsStep_nodup
      (foldl_honorificStep_nodup _ _ (stripHonorific_nodup (addVar_nodup h _)))

theorem foldl_nameStep_nodup {honorifics honSet : List String} :
    ∀ (names : List String) (vars : List String), vars.Nodup →
      (names.foldl (nameStep honorifics honSet) vars).Nodup := by
  intro names
  induction names with
  | nil => exact fun _ h => h
  | cons n rest ih =>
    intro vars h
    exact ih _ (nameStep_nodup h n)

theorem insertByLen_perm (x : String) (l : List String) :
    (insertByLen x l).Perm (x :: l) := by
  induction l with
  | nil => exact List.Perm.refl _
  | cons y ys ih =>
    unfold insertByLen
    by_cases hc : y.length < x.length
    · simp only [hc, if_true]
      exact List.Perm.refl _
    · simp only [hc, if_false]
      exact (ih.cons y).trans (List.Perm.swap x y ys)

theorem sortDescLen_perm (l : List String) : (sortDescLen l).Perm l := by
  induction l with
  | nil => exact List.Perm.refl _
  | cons x xs ih =>
    unfold sortDescLen at ih ⊢
    simp only [List.foldr_cons]
    exact (insertByLen_perm x _).trans (ih.cons x)

theorem mem_insertByLen {z x : String} {l : List String} :
    z ∈ insertByLen x l ↔ z = x ∨ z ∈ l := by
  constructor
  · intro h
    have := (insertByLen_perm x l).mem_iff.mp h
    simpa using this
  · intro h
    apply (insertByLen_perm x l).mem_iff.mpr
    simpa using h

theorem insertByLen_sorted {l : List String}
    (h : l.Sorted (fun a b => b.length ≤ a.length)) (x : String) :
    (insertByLen x l).Sorted (fun a b => b.length ≤ a.length) := by
  induction l with
  | nil => simp [insertByLen]
  | cons y ys ih =>
    rw [List.sorted_cons] at h
    obtain ⟨hy, hys⟩ := h
    unfold insertByLen
    by_cases hc : y.length < x.length
    · simp only [hc, if_true]
      rw [List.sorted_cons]
      constructor
      · intro b hb
        rcases List.mem_cons.mp hb with rfl | hb
        · omega
        · have := hy b hb
          omega
      · rw [List.sorted_cons]
        exact ⟨hy, hys⟩
    · simp only [hc, if_false]
      rw [List.sorted_cons]
      constructor
      · intro b hb
        rcases mem_insertByLen.mp hb with rfl | hb
        · omega
        · exact hy b hb
      · exact ih hys

theorem sortDescLen_sorted (l : List String) :
    (sortDescLen l).Sorted (fun a b => b.length ≤ a.length) := by
  induction l with
  | nil => simp [sortDescLen]
  | cons x xs ih =>
    unfold sortDescLen at ih ⊢
    simp only [List.foldr_cons]
    exact insertByLen_sorted ih x

theorem generate_nodup (names honorifics : List String) :
    (generate_name_variations names honorifics).Nodup := by
  unfold generate_name_variations
  by_cases hn : names = []
  · simp [hn]
  · simp only [hn, if_false]
    apply (sortDescLen_perm _).nodup_iff.mpr
    exact List.Nodup.filter _ (foldl_nameStep_nodup _ _ List.nodup_nil)

theorem generate_minlen {names honorifics : List String} {v : String}
    (h : v ∈ generate_name_variations names honorifics) : 1 < (pyStrip v).length := by
  unfold generate_name_variations at h
  by_cases hn : names = []
  · simp [hn] at h
  · simp only [hn, if_false] at h
    have hm := (sortDescLen_perm _).mem_iff.mp h
    have := List.of_mem_filter hm
    simp only [Bool.and_eq_true, decide_eq_true_eq] at this
    exact this.2

theorem generate_sorted (names honorifics : List String) :
    (generate_name_variations names honorifics).Sorted
      (fun a b => b.length ≤ a.length) := by
  unfold generate_name_variations
  by_cases hn : names = []
  · simp [hn]
  · simp only [hn, if_false]
    exact sortDescLen_sorted _

/-! ## Lemmas about the ZIP loops and blank runs -/

theorem rtir_allBlank {runs : List Run} {terms : List String} {ph : String}
    (h : ∀ x ∈ runs, isBlank x.text = true) :
    redact_text_in_runs runs terms ph = (runs, false) := by
  induction runs with
  | nil => rfl
  | cons r rest ih =>
    unfold redact_text_in_runs
    have hb : redactRun terms ph r = (r, false) := by
      unfold redactRun
      simp [h r (List.mem_cons_self r rest)]
    rw [hb, ih (fun x hx => h x (List.mem_cons_of_mem r hx))]
    rfl

theorem zipWriteLoop_data (base : String) :
    ∀ (c : Nat) (l : List ZipMember),
      (zipWriteLoop base c l).map ZipMember.data = l.map ZipMember.data := by
  intro c l
  induction l generalizing c with
  | nil => rfl
  | cons m rest ih => simp [zipWriteLoop, ih]

theorem zipReadLoop_fst (rf : String → Bytes → Option Bytes) :
    ∀ (members : List ZipMember) (acc : List ZipMember × Bool),
      (members.foldl (zipReadStep rf) acc).1 =
        acc.1 ++ (members.filter keepMember).map
          (fun m => ⟨m.name, (rf (extLowerOf m.name) m.data).getD m.data⟩) := by
  intro members
  induction members with
  | nil => intro acc; simp
  | cons m rest ih =>
    intro acc
    simp only [List.foldl_cons]
    by_cases hs : skipEntry m.name
    · have hk : keepMember m = false := by simp [keepMember, hs]
      have hstep : zipReadStep rf acc m = acc := by simp [zipReadStep, hs]
      rw [hstep, ih acc]
      simp [List.filter_cons, hk]
    · by_cases hsup : supportedExt (extLowerOf m.name)
      · have hk : keepMember m = true := by simp [keepMember, hs, hsup]
        have hstep : zipReadStep rf acc m =
            (acc.1 ++ [⟨m.name, (rf (extLowerOf m.name) m.data).getD m.data⟩], true) := by
          simp [zipReadStep, hs, hsup]
        rw [hstep, ih]
        simp [List.filter_cons, hk]
      · have hk : keepMember m = false := by simp [keepMember, hs, hsup]
        have hstep : zipReadStep rf acc m = acc := by simp [zipReadStep, hs, hsup]
        rw [hstep, ih acc]
        simp [List.filter_cons, hk]

/-! ## Claim theorems -/

/-- C1 (counterexample): the source does NOT concatenate a paragraph's run
texts before matching.  On the two-run paragraph "John " / "Smith" with the
single term "John Smith", `redact_text_in_runs` leaves both runs untouched
and reports no modification, while the claimed paragraph-level behaviour
(`claimParagraphRedact`, modelled from the claim's words) redacts the
concatenated text into one rebuilt run. -/
theorem claim_C1_counterexample :
    redact_text_in_runs [⟨"John ", 0⟩, ⟨"Smith", 1⟩] ["John Smith"] "[REDACTED]" =
      ([⟨"John ", 0⟩, ⟨"Smith", 1⟩], false) ∧
    claimParagraphRedact [⟨"John ", 0⟩, ⟨"Smith", 1⟩] ["John Smith"] "[REDACTED]" =
      ([⟨"[REDACTED]", 0⟩], true) := by
  decide

/-- C1 (amended): redaction is per run, not per paragraph: each run's text is
matched and rewritten independently and in place, the number of runs and
every run's formatting are always preserved, and the paragraph's modified
flag is the disjunction of the per-run flags.  A term spanning a run boundary
is therefore not matched (see the counterexample). -/
theorem claim_C1_amended_per_run (runs : List Run) (terms : List String) (ph : String) :
    (redact_text_in_runs runs terms ph).1 =
      runs.map (fun r => (redactRun terms ph r).1) ∧
    (redact_text_in_runs runs terms ph).1.map Run.fmt = runs.map Run.fmt ∧
    (redact_text_in_runs runs terms ph).2 =
      runs.any (fun r => (redactRun terms ph r).2) := by
  refine ⟨rtir_fst runs terms ph, ?_, rtir_snd runs terms ph⟩
  rw [rtir_fst, List.map_map]
  congr 1
  funext r
  exact redactRun_fmt terms ph r

/-- C2 (counterexample): the claim's boundary rule ("start and end not
adjacent to an alphanumeric exterior") is not the code's `\b` rule.  The
generated term "J.D." (from input "John Doe") ends in a non-word character,
so `\b` at its end requires an adjacent word character; in "J.D. was here"
the claim's rule finds a whole-word occurrence at position 0, yet the code's
`re.subn` makes zero replacements. -/
theorem claim_C2_counterexample :
    "J.D." ∈ generate_name_variations ["John Doe"] COMMON_HONORIFICS ∧
    claimWholeWordAt "J.D." "J.D. was here" 0 = true ∧
    subnStr "J.D." "[REDACTED]" "J.D. was here" = ("J.D. was here", 0) := by
  decide

/-- C2 (amended): a term is replaced somewhere in a run text iff some
position carries a Python `\b`-match of it: a case-insensitive occurrence
whose two edges are word boundaries, where a boundary holds iff exactly one
side is a word character (alphanumeric or underscore) — so for terms whose
first and last characters are alphanumeric, the exterior must be non-word,
and a term is never replaced as a substring of a larger word: "Ann" matches
inside neither "Anna" nor "Annual". -/
theorem claim_C2_amended_boundary (t ph s : String) :
    (0 < (subnStr t ph s).2 ↔
      ∃ i, i < s.data.length ∧ pyMatchAt t.data s.data i = true) ∧
    subnStr "Ann" "[REDACTED]" "Anna and Annual" = ("Anna and Annual", 0) :=
  ⟨subn_pos_iff_exists t ph s, by decide⟩

/-- C3: terms are applied longest-first (`sorted(key=len, reverse=True)`),
and each replacement rewrites the working text before the next term is
scanned: on "John Smith works here" with terms {"John Smith", "Smith"} and
placeholder "[REDACTED]", exactly one substitution happens, covering the full
"John Smith" span, and "Smith" no longer re-matches. -/
theorem claim_C3_longest_first :
    sortDescLen ["Smith", "John Smith"] = ["John Smith", "Smith"] ∧
    applyTerms (sortDescLen ["Smith", "John Smith"]) "[REDACTED]"
        "John Smith works here" =
      ("[REDACTED] works here", 1) := by
  decide

/-- C4 (counterexample): for input "Prof. John K. Doe" the generator does NOT
produce "John D.", nor the initials form "J.D." (those come only from the
two-part branch, and this bare name has three parts), nor "Dr. John K. Doe"
(the honorific combinations use the bare form "John K Doe", whose middle
initial lost its period to the honorific split). -/
theorem claim_C4_counterexample :
    "John D." ∉ generate_name_variations ["Prof. John K. Doe"] COMMON_HONORIFICS ∧
    "J.D." ∉ generate_name_variations ["Prof. John K. Doe"] COMMON_HONORIFICS ∧
    "Dr. John K. Doe" ∉ generate_name_variations ["Prof. John K. Doe"] COMMON_HONORIFICS := by
  decide

/-- C4 (amended): for input "Prof. John K. Doe" (honorific list containing
"Prof."), the result contains the verbatim entry, "John K. Doe" and
"J. K. Doe" (from the three-part branch), "Doe", "J. Doe", "John Doe", and
for the other honorific "Dr." both "Dr. Doe" and "Dr. John K Doe" (the
honorific prefixed to the period-less bare form); the two-part forms
"John D." and "J.D." are not generated for a three-part name. -/
theorem claim_C4_amended_variations :
    "Prof. John K. Doe" ∈ generate_name_variations ["Prof. John K. Doe"] COMMON_HONORIFICS ∧
    "John K. Doe" ∈ generate_name_variations ["Prof. John K. Doe"] COMMON_HONORIFICS ∧
    "J. K. Doe" ∈ generate_name_variations ["Prof. John K. Doe"] COMMON_HONORIFICS ∧
    "Doe" ∈ generate_name_variations ["Prof. John K. Doe"] COMMON_HONORIFICS ∧
    "J. Doe" ∈ generate_name_variations ["Prof. John K. Doe"] COMMON_HONORIFICS ∧
    "John Doe" ∈ generate_name_variations ["Prof. John K. Doe"] COMMON_HONORIFICS ∧
    "Dr. Doe" ∈ generate_name_variations ["Prof. John K. Doe"] COMMON_HONORIFICS ∧
    "Dr. John K Doe" ∈ generate_name_variations ["Prof. John K. Doe"] COMMON_HONORIFICS := by
  decide

/-- C5: for every input, the generated variation list has no duplicates,
every element's trimmed length exceeds 1 (no empty or single-character
terms), the list is sorted by descending length, and the empty input list
yields the empty result. -/
theorem claim_C5_invariants (names honorifics : List String) :
    (generate_name_variations names honorifics).Nodup ∧
    (∀ v, v ∈ generate_name_variations names honorifics →
      1 < (pyStrip v).length) ∧
    (generate_name_variations names honorifics).Sorted
      (fun a b => b.length ≤ a.length) ∧
    generate_name_variations [] honorifics = [] :=
  ⟨generate_nodup names honorifics, fun _ hv => generate_minlen hv,
    generate_sorted names honorifics, by simp [generate_name_variations]⟩

/-- Witness for C5 at a concrete input. -/
theorem claim_C5_witness :
    "Doe" ∈ generate_name_variations ["John Doe"] COMMON_HONORIFICS ∧
    1 < (pyStrip "Doe").length :=
  ⟨by decide,
    (claim_C5_invariants ["John Doe"] COMMON_HONORIFICS).2.1 "Doe" (by decide)⟩

/-- C6 (counterexample): `redact_docx` can return a non-None result although
no run's text changed: with term "ab" and placeholder "AB", the run text "AB"
is matched case-insensitively and replaced by the identical string, so the
output document equals the input while the result is non-None. -/
theorem claim_C6_counterexample :
    redact_docx ⟨[[⟨"AB", 0⟩]], [], []⟩ ["ab"] "AB" =
      some ⟨[[⟨"AB", 0⟩]], [], []⟩ := by
  decide

/-- C6 (amended): when no term `\b`-matches anywhere in the document (body,
tables, headers, footers), the traversal leaves every run exactly as it was
and `redact_docx` returns `None`; in general the result is `None` iff zero
substitutions occurred — a substitution can leave a run's text unchanged
(placeholder coinciding with the matched span), so "non-None" does not imply
a text change. -/
theorem claim_C6_amended_none (doc : DocxDoc) (terms : List String) (ph : String) :
    ((∀ r ∈ docRuns doc, ∀ t ∈ terms, hasMatchIn t r.text = false) →
      redactDocxCore doc terms ph = (doc, false) ∧
        redact_docx doc terms ph = none) ∧
    (redact_docx doc terms ph = none ↔
      (docRuns doc).all (fun r => runSubCount terms ph r == 0) = true) := by
  constructor
  · intro h
    have hc := redactDocxCore_noMatch h ph
    exact ⟨hc, by simp [redact_docx, hc]⟩
  · exact redact_docx_none_iff doc terms ph

/-- Witness for C6 at a concrete input. -/
theorem claim_C6_witness :
    (∀ r ∈ docRuns ⟨[[⟨"Hello world", 0⟩]], [], []⟩,
      ∀ t ∈ ["Jane Doe"], hasMatchIn t r.text = false) ∧
    redact_docx ⟨[[⟨"Hello world", 0⟩]], [], []⟩ ["Jane Doe"] "[REDACTED]" = none :=
  ⟨by decide,
    ((claim_C6_amended_none ⟨[[⟨"Hello world", 0⟩]], [], []⟩ ["Jane Doe"]
      "[REDACTED]").1 (by decide)).2⟩

/-- C7: redaction is idempotent on already-redacted content: if no term
`\b`-matches any run text of the document (e.g. only the placeholder remains
and no term matches inside it), the pass performs zero substitutions, the
traversal returns the document unchanged with `modified = False`, and
`redact_docx` returns `None` (the caller then offers the original bytes). -/
theorem claim_C7_idempotent (doc : DocxDoc) (terms : List String) (ph : String)
    (h : ∀ r ∈ docRuns doc, ∀ t ∈ terms, hasMatchIn t r.text = false) :
    (docRuns doc).all (fun r => runSubCount terms ph r == 0) = true ∧
    redactDocxCore doc terms ph = (doc, false) ∧
    redact_docx doc terms ph = none := by
  have hc := redactDocxCore_noMatch h ph
  refine ⟨?_, hc, by simp [redact_docx, hc]⟩
  rw [List.all_eq_true]
  intro r hr
  unfold runSubCount
  by_cases hb : isBlank r.text
  · simp [hb]
  · simp only [hb, if_false]
    rw [applyTerms_noMatch (fun t ht => h r hr t ht) ph]
    simp

/-- Witness for C7 at a concrete input. -/
theorem claim_C7_witness :
    (∀ r ∈ docRuns ⟨[[⟨"[REDACTED] works here", 0⟩]], [], []⟩,
      ∀ t ∈ ["John Smith", "Smith"], hasMatchIn t r.text = false) ∧
    redact_docx ⟨[[⟨"[REDACTED] works here", 0⟩]], [], []⟩
      ["John Smith", "Smith"] "[REDACTED]" = none :=
  ⟨by decide,
    (claim_C7_idempotent ⟨[[⟨"[REDACTED] works here", 0⟩]], [], []⟩
      ["John Smith", "Smith"] "[REDACTED]" (by decide)).2.2⟩

/-- C8: the PDF output is independent of the placeholder string — the
placeholder is never rendered into a PDF: every applied redaction mark
carries empty overlay text and opaque black fill. -/
theorem claim_C8_placeholder_independent (doc : List PdfPage)
    (terms : List String) (p1 p2 : String) :
    redact_pdf doc terms p1 = redact_pdf doc terms p2 ∧
    (pdfTraces doc terms).all
      (fun tr => tr.all
        (fun m => decide (m.overlay = "" ∧ m.fill = (0, 0, 0)))) = true := by
  constructor
  · rfl
  · rw [List.all_eq_true]
    intro tr htr
    rw [List.all_eq_true]
    intro m hm
    simp only [pdfTraces, List.mem_map] at htr
    obtain ⟨pg, _, rfl⟩ := htr
    simp only [pageTrace, List.mem_map] at hm
    obtain ⟨r, _, rfl⟩ := hm
    simp

/-- C9: whenever the ZIP branch produces an output archive, its members'
contents are exactly the supported (.docx/.pptx/.pdf), non-directory,
non-`__MACOSX` input members in order, each as its redacted bytes when the
adapter changed it and its original bytes otherwise; members of any other
format are absent. -/
theorem claim_C9_zip_members (rf : String → Bytes → Option Bytes) (base : String)
    (members : List ZipMember) (out : List ZipMember)
    (h : processZip rf base members = some out) :
    out.map ZipMember.data =
      (members.filter keepMember).map
        (fun m => (rf (extLowerOf m.name) m.data).getD m.data) := by
  unfold processZip at h
  by_cases hc : (zipReadLoop rf members).2 && !(zipReadLoop rf members).1.isEmpty
  · simp only [hc, if_true, Option.some_inj] at h
    rw [← h, zipWriteLoop_data]
    have hfst : (zipReadLoop rf members).1 =
        (members.filter keepMember).map
          (fun m => ⟨m.name, (rf (extLowerOf m.name) m.data).getD m.data⟩) := by
      unfold zipReadLoop
      rw [zipReadLoop_fst rf members ([], false)]
      exact List.nil_append _
    rw [hfst, List.map_map]
    congr 1
  · simp [hc] at h

/-- Witness for C9 at a concrete input. -/
theorem claim_C9_witness :
    processZip (fun e _ => if e = ".docx" then some [9] else none) "out"
      [⟨"a.txt", [1]⟩, ⟨"b.docx", [2]⟩, ⟨"__MACOSX/x.docx", [3]⟩, ⟨"d/", []⟩,
        ⟨"c.pdf", [4]⟩] =
      some [⟨"out_B_0001.docx", [9]⟩, ⟨"out_C_0002.pdf", [4]⟩] ∧
    [(⟨"out_B_0001.docx", [9]⟩ : ZipMember), ⟨"out_C_0002.pdf", [4]⟩].map
        ZipMember.data =
      ([⟨"a.txt", [1]⟩, ⟨"b.docx", [2]⟩, ⟨"__MACOSX/x.docx", [3]⟩, ⟨"d/", []⟩,
        (⟨"c.pdf", [4]⟩ : ZipMember)].filter keepMember).map
        (fun m => ((fun e _ => if e = ".docx" then some [9] else none)
          (extLowerOf m.name) m.data).getD m.data) :=
  ⟨by decide,
    claim_C9_zip_members (fun e _ => if e = ".docx" then some [9] else none) "out"
      [⟨"a.txt", [1]⟩, ⟨"b.docx", [2]⟩, ⟨"__MACOSX/x.docx", [3]⟩, ⟨"d/", []⟩,
        ⟨"c.pdf", [4]⟩]
      [⟨"out_B_0001.docx", [9]⟩, ⟨"out_C_0002.pdf", [4]⟩] (by decide)⟩

/-- C10: a run whose text is empty or whitespace-only is skipped: the run is
returned untouched with a false modified flag, and a paragraph consisting
only of such runs is never reported as modified, for every term set and
placeholder. -/
theorem claim_C10_blank_runs (runs : List Run) (terms : List String)
    (ph : String) (r : Run) :
    (isBlank r.text = true → redactRun terms ph r = (r, false)) ∧
    ((∀ x ∈ runs, isBlank x.text = true) →
      redact_text_in_runs runs terms ph = (runs, false)) := by
  constructor
  · intro h
    unfold redactRun
    simp [h]
  · intro h
    exact rtir_allBlank h

/-- Witness for C10 at a concrete input. -/
theorem claim_C10_witness :
    (∀ x ∈ [(⟨"   ", 0⟩ : Run), ⟨"", 1⟩], isBlank x.text = true) ∧
    redact_text_in_runs [⟨"   ", 0⟩, ⟨"", 1⟩] ["John"] "[REDACTED]" =
      ([⟨"   ", 0⟩, ⟨"", 1⟩], false) :=
  ⟨by decide,
    (claim_C10_blank_runs [⟨"   ", 0⟩, ⟨"", 1⟩] ["John"] "[REDACTED]"
      ⟨"", 0⟩).2 (by decide)⟩
